import Mathlib

/-!
Verification of the QueryTube embedding pipeline (embed.py and
vector_db.py). The Python source is shallowly embedded: pandas cell
values become the inductive type Val, rows become association lists,
and the row loop of vector_db.main becomes the pure function
processRows. Line numbers in doc comments refer to the Python files.
-/

namespace QueryTube

/-- A decimal scalar as printed by Python repr for a float written in plain
decimal notation: a sign, the integer part digits and the fractional part
digits (base 10, most significant first). -/
structure Dec where
  neg : Bool
  ip : List Nat
  fp : List Nat
deriving DecidableEq

/-- Well formed decimal: both digit blocks nonempty (Python float repr always
prints at least one digit on each side of the dot) and every digit below 10. -/
def DecWF (d : Dec) : Prop :=
  d.ip ≠ [] ∧ d.fp ≠ [] ∧ (∀ x ∈ d.ip, x < 10) ∧ ∀ x ∈ d.fp, x < 10

instance (d : Dec) : Decidable (DecWF d) := by
  unfold DecWF; infer_instance

/-- Character for a digit below 10. -/
def digitToChar (d : Nat) : Char := Char.ofNat (48 + d)

/-- Boolean test for an ASCII digit character. -/
def isDigitChar (c : Char) : Bool := 48 ≤ c.toNat && c.toNat ≤ 57

/-- Numeric value of an ASCII digit character. -/
def charToDigit (c : Char) : Nat := c.toNat - 48

/-- Characters of one serialized scalar, as Python repr prints a plain
decimal float, for example -12.25 or 0.5. -/
def serializeDecChars (d : Dec) : List Char :=
  (if d.neg then ['-'] else []) ++ d.ip.map digitToChar ++ '.' :: d.fp.map digitToChar

/-- Characters between the brackets: items separated by a comma and a space,
exactly as Python str prints a list of floats. -/
def serializeItems : List Dec → List Char
  | [] => []
  | [d] => serializeDecChars d
  | d :: e :: rest => serializeDecChars d ++ ',' :: ' ' :: serializeItems (e :: rest)

/-- Full serialized embedding, modelling embed.py line 30: the embedding
column holds str of the float list, for example the string [0.5, -1.25]. -/
def serializeEmbedding (l : List Dec) : String :=
  String.mk ('[' :: serializeItems l ++ [']'])

/-- Consume a maximal run of digit characters. -/
def takeDigits : List Char → List Nat × List Char
  | [] => ([], [])
  | c :: cs =>
    if isDigitChar c then
      let p := takeDigits cs
      (charToDigit c :: p.1, p.2)
    else ([], c :: cs)

/-- Strip a leading minus sign, reporting whether one was present. -/
def splitSign (cs : List Char) : Bool × List Char :=
  match cs with
  | [] => (false, [])
  | c :: rest => if c = '-' then (true, rest) else (false, c :: rest)

/-- Parse one plain decimal literal, returning it together with the rest of
the input. Models the scalar grammar that appears inside a stringified
float list. -/
def parseDec? (cs : List Char) : Option (Dec × List Char) :=
  let sp := splitSign cs
  let p1 := takeDigits sp.2
  if p1.1 = [] then none
  else
    match p1.2 with
    | '.' :: cs3 =>
      let p2 := takeDigits cs3
      if p2.1 = [] then none else some (⟨sp.1, p1.1, p2.1⟩, p2.2)
    | _ => none

/-- Parse a comma separated sequence of decimals; the fuel argument bounds
the number of items. -/
def parseItems : Nat → List Char → Option (List Dec × List Char)
  | 0, _ => none
  | fuel + 1, cs =>
    match parseDec? cs with
    | none => none
    | some (d, rest) =>
      match rest with
      | ',' :: ' ' :: rest2 =>
        match parseItems fuel rest2 with
        | none => none
        | some (ds, r) => some (d :: ds, r)
      | _ => some ([d], rest)

/-- Parse a stringified numeric list. Models ast.literal_eval (with the
json.loads fallback) from vector_db.py lines 23 to 31, restricted to the
grammar of lists of plain decimal literals that the embedder writes; any
other string is treated as unparsable and yields none. -/
def parseEmb : List Char → Option (List Dec)
  | '[' :: rest =>
    if rest = [']'] then some []
    else
      match parseItems rest.length rest with
      | some (ds, [']']) => some ds
      | _ => none
  | _ => none

/-- String level entry point of the embedding parser. -/
def parseEmbedding (s : String) : Option (List Dec) := parseEmb s.data

/-- A pandas cell value: NaN (missing), a string, an integer, or a numeric
list. -/
inductive Val where
  | nanV : Val
  | strV : String → Val
  | intV : Int → Val
  | listV : List Dec → Val
deriving DecidableEq

/-- Models pd.isna on a scalar cell. -/
def pdIsna : Val → Bool
  | Val.nanV => true
  | _ => false

/-- Models Python truthiness bool(v). Note that NaN is truthy in Python. -/
def pyTruthy : Val → Bool
  | Val.nanV => true
  | Val.strV s => s != ""
  | Val.intV n => n != 0
  | Val.listV l => !l.isEmpty

/-- Models Python str(v): identity on strings, nan for NaN, decimal notation
for integers, the bracketed form for lists. -/
def pyStr : Val → String
  | Val.nanV => "nan"
  | Val.strV s => s
  | Val.intV n => toString n
  | Val.listV l => serializeEmbedding l

/-- Python whitespace test for str.strip. -/
def isPySpace (c : Char) : Bool :=
  c == ' ' || c == '\t' || c == '\n' || c == '\r' || c == '\x0b' || c == '\x0c'

/-- Python str.strip over the underlying characters. -/
def pyStripChars (cs : List Char) : List Char :=
  ((cs.dropWhile isPySpace).reverse.dropWhile isPySpace).reverse

/-- Models Python str.strip. -/
def pyStrip (s : String) : String := String.mk (pyStripChars s.data)

/-- Lower one ASCII character, as str.lower does on the strings the source
compares. -/
def pyLowerChar (c : Char) : Char :=
  if 65 ≤ c.toNat && c.toNat ≤ 90 then Char.ofNat (c.toNat + 32) else c

/-- Models str.lower for the ASCII strings compared in the source. -/
def pyLower (s : String) : String := String.mk (s.data.map pyLowerChar)

/-- One scan step of Python str.split with a nonempty separator, written
with explicit fuel so that the recursion is structural: split at every non
overlapping occurrence of the separator, scanning left to right. -/
def splitGo (sep : List Char) : Nat → List Char → List Char → List (List Char)
  | 0, rest, acc => [acc.reverse ++ rest]
  | _ + 1, [], acc => [acc.reverse]
  | fuel + 1, c :: cs, acc =>
    if sep.isPrefixOf (c :: cs) then
      acc.reverse :: splitGo sep fuel ((c :: cs).drop sep.length) []
    else splitGo sep fuel cs (c :: acc)

/-- Models Python str.split(sep) for a nonempty separator, over character
lists. The fuel bound length + 1 is enough for the whole scan. -/
def pySplitOn (sep : List Char) (cs : List Char) : List (List Char) :=
  splitGo sep (cs.length + 1) cs []

/-- Rows are association lists from column name to cell value. -/
def Row : Type := List (String × Val)

/-- Models pandas row.get(k): the cell when the column is present, none
otherwise. The source guards some lookups with a membership test before
calling get, which is equivalent to this function. -/
def Row.get (r : Row) (k : String) : Option Val :=
  (List.find? (fun p => p.1 == k) r).map (fun p => p.2)

/-- Models ensure_embedding_list, vector_db.py lines 19 to 34. The argument
is the raw embedding cell, with none standing for Python None. -/
def ensure_embedding_list (x : Option Val) : Option (List Dec) :=
  match x with
  | none => none
  | some v =>
    if pdIsna v then none
    else if v = Val.strV "" then none
    else
      match v with
      | Val.strV s => parseEmbedding s
      | Val.listV l => some l
      | _ => none

/-- Validity test and normalization shared by the video_id and id branches of
get_valid_video_id, vector_db.py lines 115 to 121: the cell must be present,
not NaN, have a nonblank str, and its lowercased str must differ from nan;
the returned ID is the stripped str. -/
def validIdOf (ov : Option Val) : Option String :=
  match ov with
  | none => none
  | some v =>
    if !pdIsna v && pyStrip (pyStr v) != "" && pyLower (pyStr v) != "nan" then
      some (pyStrip (pyStr v))
    else none

/-- URL branch of get_valid_video_id, lines 123 to 131: when the url cell is
present, not NaN, and its str contains v=, take what stands between the
first v= and the following ampersand; an empty extraction is rejected. -/
def urlIdOf (ov : Option Val) : Option String :=
  match ov with
  | none => none
  | some v =>
    if pdIsna v then none
    else
      let parts := pySplitOn ['v', '='] (pyStr v).data
      if 2 ≤ parts.length then
        let seg := (pySplitOn ['&'] (parts.getD 1 [])).getD 0 []
        if seg.isEmpty then none else some (String.mk seg)
      else none

/-- Models get_valid_video_id, vector_db.py lines 112 to 134. -/
def get_valid_video_id (row : Row) (idx : Nat) : String :=
  match validIdOf (Row.get row "video_id") with
  | some s => s
  | none =>
    match validIdOf (Row.get row "id") with
    | some s => s
    | none =>
      match urlIdOf (Row.get row "url") with
      | some s => s
      | none => "vid_" ++ toString idx

/-- Python test (not raw_doc or pd.isna(raw_doc)) on an optional cell: true
for None, falsy values and NaN. -/
def falsyOrNa : Option Val → Bool
  | none => true
  | some v => !pyTruthy v || pdIsna v

/-- Document text selection, vector_db.py lines 175 to 186: prefer
transcript_clean, then combined_text, then transcript, and convert a missing
or NaN result to the empty string. -/
def docText (row : Row) : String :=
  let d1 := Row.get row "transcript_clean"
  let d2 := if falsyOrNa d1 then Row.get row "combined_text" else d1
  let d3 := if falsyOrNa d2 then Row.get row "transcript" else d2
  match d3 with
  | none => ""
  | some v => if pdIsna v then "" else pyStr v

/-- Value of a string of digit characters (most significant first), with
accumulator. -/
def digitsVal (a : Nat) : List Char → Nat
  | [] => a
  | c :: cs => digitsVal (a * 10 + (c.toNat - 48)) cs

/-- Value of a pure digit character list, none when empty or not all digits. -/
def digitsOnlyVal (ds : List Char) : Option Int :=
  if !ds.isEmpty && ds.all isDigitChar then some ((digitsVal 0 ds : Nat) : Int) else none

/-- Models Python int(s) on a string: optional sign and digits after
stripping blanks; anything else raises, modelled as none. -/
def parseIntStr (s : String) : Option Int :=
  match pyStripChars s.data with
  | '-' :: ds => (digitsOnlyVal ds).map (fun n => -n)
  | '+' :: ds => digitsOnlyVal ds
  | ds => digitsOnlyVal ds

/-- Models Python int(v) on a cell: integers pass through, digit strings
parse, NaN and lists raise, modelled as none. -/
def pyInt : Val → Option Int
  | Val.intV n => some n
  | Val.strV s => parseIntStr s
  | _ => none

/-- Models str.isdigit: nonempty and every character a digit. -/
def pyIsdigit (s : String) : Bool := !s.isEmpty && s.data.all isDigitChar

/-- Metadata attached to one stored document, vector_db.py lines 204 to 209. -/
structure Meta where
  title : String
  channel_title : String
  view_count : Option Int
  duration_seconds : Option Int
deriving DecidableEq

/-- Python v or "" over an optional cell followed by str. -/
def pyOr1Str (b : Option Val) : String :=
  match b with
  | some v => if pyTruthy v then pyStr v else ""
  | none => ""

/-- Python a or b or "" over optional cells followed by str, as in the title
metadata field, line 205. -/
def pyOr2Str (a b : Option Val) : String :=
  match a with
  | some v => if pyTruthy v then pyStr v else pyOr1Str b
  | none => pyOr1Str b

/-- View count metadata, lines 189 to 193: int of the cell when its str
strips to a digit string, else none. -/
def viewCountOf (row : Row) : Option Int :=
  match Row.get row "view_count" with
  | none => none
  | some v => if pyIsdigit (pyStrip (pyStr v)) then pyInt v else none

/-- Duration metadata, lines 195 to 200: int of the cell when present and
not NaN, none when the conversion raises. -/
def durationOf (row : Row) : Option Int :=
  match Row.get row "duration_seconds" with
  | none => none
  | some v => if pdIsna v then none else pyInt v

/-- Metadata mapping built at lines 204 to 209. -/
def mkMeta (row : Row) : Meta :=
  ⟨pyOr2Str (Row.get row "title") (Row.get row "title_clean"),
   pyOr1Str (Row.get row "channel_title"),
   viewCountOf row,
   durationOf row⟩

/-- Candidate name tried by the collision loop: base, an underscore and the
counter, as in the f string at line 165. -/
def candName (base : String) (k : Nat) : String := base ++ "_" ++ toString k

/-- The while loop of lines 163 to 166, totalized with fuel: try base_1,
base_2, and so on, returning the first candidate outside used. Fuel
used.length + 1 always suffices, so the zero fuel branch is unreachable
from uniquify. -/
def uniquifyAux (used : List String) (base : String) : Nat → Nat → String
  | 0, counter => candName base counter
  | fuel + 1, counter =>
    if candName base counter ∈ used then uniquifyAux used base fuel (counter + 1)
    else candName base counter

/-- Unique ID assignment of lines 161 to 167: keep the resolved base ID when
unused, otherwise append the first free numeric suffix. -/
def uniquify (used : List String) (base : String) : String :=
  if base ∈ used then uniquifyAux used base (used.length + 1) 1 else base

/-- Accumulated state of the row loop of main, lines 148 to 210: the used ID
set and the four parallel output lists. -/
structure Acc where
  usedIds : List String
  ids : List String
  documents : List String
  metadatas : List Meta
  embeddings : List (List Dec)
deriving DecidableEq

/-- Empty state before the loop, lines 148 to 154. -/
def initAcc : Acc := ⟨[], [], [], [], []⟩

/-- One iteration of the row loop, lines 157 to 210: resolve and uniquify
the ID, record it as used, then either skip the row (missing or unparsable
embedding) or append one entry to each of the four lists. -/
def processRow (acc : Acc) (idx : Nat) (row : Row) : Acc :=
  let vid := uniquify acc.usedIds (get_valid_video_id row idx)
  let used := acc.usedIds ++ [vid]
  match ensure_embedding_list (Row.get row "embedding") with
  | none => ⟨used, acc.ids, acc.documents, acc.metadatas, acc.embeddings⟩
  | some emb =>
    ⟨used, acc.ids ++ [vid], acc.documents ++ [docText row],
     acc.metadatas ++ [mkMeta row], acc.embeddings ++ [emb]⟩

/-- The row loop from a given positional index and state. -/
def processFrom (idx : Nat) (acc : Acc) : List Row → Acc
  | [] => acc
  | r :: rs => processFrom (idx + 1) (processRow acc idx r) rs

/-- The whole row loop of main over the dataframe rows in order, indices
starting at 0 as pandas iterrows yields them for a fresh csv read. -/
def processRows (rows : List Row) : Acc := processFrom 0 initAcc rows

/-- Chunking of the insert loop, lines 222 to 228: consecutive slices of at
most 256 records. -/
def chunks256 {α : Type} : List α → List (List α)
  | [] => []
  | a :: rest => (a :: rest).take 256 :: chunks256 ((a :: rest).drop 256)
termination_by l => l.length
decreasing_by simp [List.length_drop]; omega

/-- Result of one library call, abstracting the chromadb collection: it can
succeed, raise TypeError, or raise some other exception. -/
inductive CallResult where
  | ok
  | typeError
  | otherError
deriving DecidableEq

/-- Abstract behaviour of the chromadb collection object for one batch. -/
structure CollectionApi where
  addKw : CallResult
  addPos : CallResult
  hasUpsert : Bool
  upsertRaises : Bool
deriving DecidableEq

/-- How one batch insert ended. -/
inductive InsertOutcome where
  | insertedKw
  | insertedPos
  | upserted
  | raisedFromKw
  | raisedFromPos
  | raisedFromUpsert
deriving DecidableEq

/-- Models the try chain of lines 229 to 248: keyword add first; only a
TypeError falls through to positional add; any positional failure falls
through to upsert when available, otherwise the positional error re-raises;
an upsert failure propagates unhandled. -/
def insertBatch (c : CollectionApi) : InsertOutcome :=
  match c.addKw with
  | CallResult.ok => InsertOutcome.insertedKw
  | CallResult.otherError => InsertOutcome.raisedFromKw
  | CallResult.typeError =>
    match c.addPos with
    | CallResult.ok => InsertOutcome.insertedPos
    | _ =>
      if c.hasUpsert then
        if c.upsertRaises then InsertOutcome.raisedFromUpsert else InsertOutcome.upserted
      else InsertOutcome.raisedFromPos

/-- Which construction strategies of create_chroma_client succeed, each
abstracted to whether its constructor raises. -/
structure ClientEnv where
  persistentOk : Bool
  httpOk : Bool
  settingsOk : Bool
  pathOk : Bool
deriving DecidableEq

/-- Result of create_chroma_client: the strategy that produced the returned
client, or failure for the final RuntimeError. -/
inductive ClientResult where
  | persistent
  | http
  | settings
  | path
  | failure
deriving DecidableEq

/-- Models create_chroma_client, vector_db.py lines 36 to 85: strategies
attempted in source order, every raise logged and swallowed, first success
returned, RuntimeError after total exhaustion. -/
def create_chroma_client (e : ClientEnv) : ClientResult :=
  if e.persistentOk then ClientResult.persistent
  else if e.httpOk then ClientResult.http
  else if e.settingsOk then ClientResult.settings
  else if e.pathOk then ClientResult.path
  else ClientResult.failure

/-- Steps of embed.main that do work, in source order. -/
inductive EmbedStep where
  | readCsv
  | embedTexts
  | writeCsv
deriving DecidableEq

/-- Models embed.main, embed.py lines 17 to 32, as the list of performed
steps plus an optional fatal error: the existence check precedes the read
and the column check precedes the embedding call. -/
def embed_main (fileExists : Bool) (cols : List String) : List EmbedStep × Option String :=
  if !fileExists then ([], some "FileNotFoundError")
  else if !(cols.contains "combined_text") then ([EmbedStep.readCsv], some "ValueError")
  else ([EmbedStep.readCsv, EmbedStep.embedTexts, EmbedStep.writeCsv], none)

/-- Steps of vector_db.main that do work, in source order. -/
inductive LoadStep where
  | readCsv
  | createClient
  | insertDocs
deriving DecidableEq

/-- Models the guard of vector_db.main, lines 137 to 146: the existence
check precedes the read, the client construction and every insertion. -/
def vector_db_main (fileExists : Bool) : List LoadStep × Option String :=
  if !fileExists then ([], some "FileNotFoundError")
  else ([LoadStep.readCsv, LoadStep.createClient, LoadStep.insertDocs], none)

/-- Number of rows whose embedding cell parses to a numeric list, that is
the rows the loader accepts. -/
def countValid (rows : List Row) : Nat :=
  (rows.filter (fun r => (ensure_embedding_list (Row.get r "embedding")).isSome)).length

/-- The input does not begin with a digit character (used to delimit digit
runs in the round trip proof). -/
def headNotDigit : List Char → Prop
  | [] => True
  | c :: _ => isDigitChar c = false

/-! Injectivity of the decimal rendering of natural numbers, used to show
that the candidate names tried by the collision loop are pairwise distinct. -/

theorem digitsVal_append (a : Nat) (xs ys : List Char) :
    digitsVal a (xs ++ ys) = digitsVal (digitsVal a xs) ys := by
  induction xs generalizing a with
  | nil => rfl
  | cons c cs ih =>
    rw [List.cons_append]
    exact ih _

theorem toDigitsCore_acc (fuel n : Nat) (ds : List Char) :
    Nat.toDigitsCore 10 fuel n ds = Nat.toDigitsCore 10 fuel n [] ++ ds := by
  induction fuel generalizing n ds with
  | zero => simp [Nat.toDigitsCore]
  | succ f ih =>
    simp only [Nat.toDigitsCore]
    by_cases h : n / 10 = 0
    · simp [h]
    · simp only [h, if_false]
      rw [ih (n / 10) (Nat.digitChar (n % 10) :: ds), ih (n / 10) [Nat.digitChar (n % 10)]]
      simp

theorem toDigitsCore_fuel (f1 f2 n : Nat) (h1 : n < f1) (h2 : n < f2) :
    Nat.toDigitsCore 10 f1 n [] = Nat.toDigitsCore 10 f2 n [] := by
  induction f1 generalizing f2 n with
  | zero => omega
  | succ f ih =>
    cases f2 with
    | zero => omega
    | succ g =>
      simp only [Nat.toDigitsCore]
      by_cases h : n / 10 = 0
      · simp [h]
      · simp only [h, if_false]
        rw [toDigitsCore_acc f (n / 10) [Nat.digitChar (n % 10)],
          toDigitsCore_acc g (n / 10) [Nat.digitChar (n % 10)]]
        have hn : n / 10 < f := by omega
        have hg : n / 10 < g := by omega
        rw [ih g (n / 10) hn hg]

theorem toDigits_eq_if (n : Nat) :
    Nat.toDigits 10 n =
      if n < 10 then [Nat.digitChar n]
      else Nat.toDigits 10 (n / 10) ++ [Nat.digitChar (n % 10)] := by
  by_cases h : n < 10
  · have hd : n / 10 = 0 := Nat.div_eq_of_lt h
    have hm : n % 10 = n := Nat.mod_eq_of_lt h
    simp [Nat.toDigits, Nat.toDigitsCore, hd, hm, h]
  · have hd : n / 10 ≠ 0 := by omega
    simp only [Nat.toDigits, Nat.toDigitsCore, hd, if_false, h]
    rw [toDigitsCore_acc n (n / 10) [Nat.digitChar (n % 10)]]
    congr 1
    exact toDigitsCore_fuel n (n / 10 + 1) (n / 10) (by omega) (by omega)

theorem digitChar_toNat (d : Nat) (h : d < 10) : (Nat.digitChar d).toNat = 48 + d := by
  interval_cases d <;> decide

theorem digitsVal_singleton (a : Nat) (c : Char) : digitsVal a [c] = a * 10 + (c.toNat - 48) :=
  rfl

theorem digitsVal_toDigits (n : Nat) :
    ∀ a, digitsVal a (Nat.toDigits 10 n) = a * 10 ^ (Nat.toDigits 10 n).length + n := by
  induction n using Nat.strong_induction_on with
  | _ n ih =>
    intro a
    by_cases h : n < 10
    · rw [toDigits_eq_if n, if_pos h, digitsVal_singleton, digitChar_toNat n h,
        List.length_cons, List.length_nil, Nat.zero_add, pow_one]
      omega
    · rw [toDigits_eq_if n, if_neg h, digitsVal_append,
        ih (n / 10) (Nat.div_lt_self (by omega) (by omega)) a,
        digitsVal_singleton, digitChar_toNat (n % 10) (Nat.mod_lt n (by omega)),
        List.length_append, List.length_cons, List.length_nil, Nat.zero_add, pow_succ,
        ← mul_assoc]
      generalize a * 10 ^ (Nat.toDigits 10 (n / 10)).length = B
      omega

theorem toDigits_inj (m n : Nat) (h : Nat.toDigits 10 m = Nat.toDigits 10 n) : m = n := by
  have hm := digitsVal_toDigits m 0
  have hn := digitsVal_toDigits n 0
  rw [h] at hm
  simp only [Nat.zero_mul, Nat.zero_add] at hm hn
  omega

theorem natRepr_data_inj (m n : Nat) (h : (Nat.repr m).data = (Nat.repr n).data) : m = n :=
  toDigits_inj m n h

theorem natToString_inj (m n : Nat) (h : toString m = toString n) : m = n :=
  natRepr_data_inj m n (congrArg String.data h)

/-! Freshness of the suffixed names chosen by the collision loop. -/

theorem candName_inj (base : String) {k1 k2 : Nat} (h : candName base k1 = candName base k2) :
    k1 = k2 := by
  have hd := congrArg String.data h
  simp only [candName, String.data_append, List.append_assoc] at hd
  have hd2 := List.append_cancel_left hd
  have hd3 := List.append_cancel_left hd2
  exact natRepr_data_inj k1 k2 hd3

theorem exists_fresh (used : List String) (base : String) (c : Nat) :
    ∃ k, c ≤ k ∧ k < c + (used.length + 1) ∧ candName base k ∉ used := by
  by_contra hcon
  push_neg at hcon
  have hnd : ((List.range (used.length + 1)).map (fun i => candName base (c + i))).Nodup := by
    refine List.Nodup.map ?_ (List.nodup_range _)
    intro i j hij
    have := candName_inj base hij
    omega
  have hsub : ((List.range (used.length + 1)).map (fun i => candName base (c + i))) ⊆ used := by
    intro x hx
    simp only [List.mem_map, List.mem_range] at hx
    obtain ⟨i, hi, rfl⟩ := hx
    exact hcon (c + i) (by omega) (by omega)
  have hle := (List.subperm_of_subset hnd hsub).length_le
  simp only [List.length_map, List.length_range] at hle
  omega

theorem uniquifyAux_shape (used : List String) (base : String) :
    ∀ fuel c, ∃ k, c ≤ k ∧ uniquifyAux used base fuel c = candName base k := by
  intro fuel
  induction fuel with
  | zero => exact fun c => ⟨c, Nat.le_refl c, rfl⟩
  | succ f ih =>
    intro c
    unfold uniquifyAux
    by_cases h : candName base c ∈ used
    · rw [if_pos h]
      obtain ⟨k, hk, he⟩ := ih (c + 1)
      exact ⟨k, by omega, he⟩
    · rw [if_neg h]
      exact ⟨c, Nat.le_refl c, rfl⟩

theorem uniquifyAux_fresh (used : List String) (base : String) :
    ∀ fuel c, (∃ k, c ≤ k ∧ k < c + fuel ∧ candName base k ∉ used) →
      uniquifyAux used base fuel c ∉ used := by
  intro fuel
  induction fuel with
  | zero =>
    intro c hk
    obtain ⟨k, h1, h2, _⟩ := hk
    omega
  | succ f ih =>
    intro c hk
    obtain ⟨k, h1, h2, h3⟩ := hk
    unfold uniquifyAux
    by_cases h : candName base c ∈ used
    · rw [if_pos h]
      apply ih (c + 1)
      have hne : k ≠ c := by
        rintro rfl
        exact h3 h
      exact ⟨k, by omega, by omega, h3⟩
    · rw [if_neg h]
      exact h

theorem uniquify_not_mem (used : List String) (base : String) : uniquify used base ∉ used := by
  unfold uniquify
  by_cases h : base ∈ used
  · rw [if_pos h]
    exact uniquifyAux_fresh used base (used.length + 1) 1 (exists_fresh used base 1)
  · rw [if_neg h]
    exact h

theorem uniquify_mem_shape (used : List String) (base : String) (h : base ∈ used) :
    ∃ k, 1 ≤ k ∧ uniquify used base = candName base k := by
  unfold uniquify
  rw [if_pos h]
  exact uniquifyAux_shape used base (used.length + 1) 1

theorem uniquify_not_mem_eq (used : List String) (base : String) (h : base ∉ used) :
    uniquify used base = base := by
  unfold uniquify
  rw [if_neg h]

/-! Behaviour of the row loop. -/

theorem processRow_skip (acc : Acc) (idx : Nat) (row : Row)
    (h : ensure_embedding_list (Row.get row "embedding") = none) :
    processRow acc idx row =
      ⟨acc.usedIds ++ [uniquify acc.usedIds (get_valid_video_id row idx)],
       acc.ids, acc.documents, acc.metadatas, acc.embeddings⟩ := by
  simp only [processRow]
  rw [h]

theorem processRow_accept (acc : Acc) (idx : Nat) (row : Row) (emb : List Dec)
    (h : ensure_embedding_list (Row.get row "embedding") = some emb) :
    processRow acc idx row =
      ⟨acc.usedIds ++ [uniquify acc.usedIds (get_valid_video_id row idx)],
       acc.ids ++ [uniquify acc.usedIds (get_valid_video_id row idx)],
       acc.documents ++ [docText row],
       acc.metadatas ++ [mkMeta row],
       acc.embeddings ++ [emb]⟩ := by
  simp only [processRow]
  rw [h]

theorem processFrom_cons (idx : Nat) (acc : Acc) (r : Row) (rs : List Row) :
    processFrom idx acc (r :: rs) = processFrom (idx + 1) (processRow acc idx r) rs :=
  rfl

theorem processRow_lengths (acc : Acc) (idx : Nat) (row : Row)
    (h1 : acc.ids.length = acc.documents.length)
    (h2 : acc.ids.length = acc.metadatas.length)
    (h3 : acc.ids.length = acc.embeddings.length) :
    (processRow acc idx row).ids.length = (processRow acc idx row).documents.length ∧
    (processRow acc idx row).ids.length = (processRow acc idx row).metadatas.length ∧
    (processRow acc idx row).ids.length = (processRow acc idx row).embeddings.length := by
  cases hE : ensure_embedding_list (Row.get row "embedding") with
  | none =>
    rw [processRow_skip acc idx row hE]
    exact ⟨h1, h2, h3⟩
  | some emb =>
    rw [processRow_accept acc idx row emb hE]
    simp only [List.length_append, List.length_cons, List.length_nil]
    omega

theorem processFrom_lengths : ∀ (rows : List Row) (idx : Nat) (acc : Acc),
    acc.ids.length = acc.documents.length →
    acc.ids.length = acc.metadatas.length →
    acc.ids.length = acc.embeddings.length →
    (processFrom idx acc rows).ids.length = (processFrom idx acc rows).documents.length ∧
    (processFrom idx acc rows).ids.length = (processFrom idx acc rows).metadatas.length ∧
    (processFrom idx acc rows).ids.length = (processFrom idx acc rows).embeddings.length := by
  intro rows
  induction rows with
  | nil => exact fun idx acc h1 h2 h3 => ⟨h1, h2, h3⟩
  | cons r rs ih =>
    intro idx acc h1 h2 h3
    rw [processFrom_cons]
    have hp := processRow_lengths acc idx r h1 h2 h3
    exact ih (idx + 1) (processRow acc idx r) hp.1 hp.2.1 hp.2.2

theorem processRow_ids_count (acc : Acc) (idx : Nat) (row : Row) :
    (processRow acc idx row).ids.length =
      acc.ids.length +
        (if (ensure_embedding_list (Row.get row "embedding")).isSome then 1 else 0) := by
  cases hE : ensure_embedding_list (Row.get row "embedding") with
  | none =>
    rw [processRow_skip acc idx row hE]
    simp
  | some emb =>
    rw [processRow_accept acc idx row emb hE]
    simp

theorem processFrom_ids_length : ∀ (rows : List Row) (idx : Nat) (acc : Acc),
    (processFrom idx acc rows).ids.length = acc.ids.length + countValid rows := by
  intro rows
  induction rows with
  | nil =>
    intro idx acc
    simp [processFrom, countValid]
  | cons r rs ih =>
    intro idx acc
    rw [processFrom_cons, ih (idx + 1) (processRow acc idx r), processRow_ids_count acc idx r]
    unfold countValid
    rw [List.filter_cons]
    by_cases h : (ensure_embedding_list (Row.get r "embedding")).isSome
    · simp only [h, if_true, List.length_cons]
      omega
    · simp only [h, Bool.false_eq_true, if_false]
      simp at h
      simp [h]

theorem processRow_inv (acc : Acc) (idx : Nat) (row : Row)
    (h1 : acc.ids ⊆ acc.usedIds) (h2 : acc.ids.Nodup) :
    (processRow acc idx row).ids ⊆ (processRow acc idx row).usedIds ∧
    (processRow acc idx row).ids.Nodup := by
  cases hE : ensure_embedding_list (Row.get row "embedding") with
  | none =>
    rw [processRow_skip acc idx row hE]
    exact ⟨fun x hx => List.mem_append_left _ (h1 hx), h2⟩
  | some emb =>
    rw [processRow_accept acc idx row emb hE]
    constructor
    · intro x hx
      rcases List.mem_append.mp hx with h | h
      · exact List.mem_append_left _ (h1 h)
      · exact List.mem_append_right _ h
    · rw [List.nodup_append]
      refine ⟨h2, List.nodup_singleton _, ?_⟩
      intro x hx hm
      have hxv := List.mem_singleton.mp hm
      subst hxv
      exact uniquify_not_mem acc.usedIds (get_valid_video_id row idx) (h1 hx)

theorem processFrom_inv : ∀ (rows : List Row) (idx : Nat) (acc : Acc),
    acc.ids ⊆ acc.usedIds → acc.ids.Nodup →
    (processFrom idx acc rows).ids ⊆ (processFrom idx acc rows).usedIds ∧
    (processFrom idx acc rows).ids.Nodup := by
  intro rows
  induction rows with
  | nil => exact fun idx acc h1 h2 => ⟨h1, h2⟩
  | cons r rs ih =>
    intro idx acc h1 h2
    rw [processFrom_cons]
    have hp := processRow_inv acc idx r h1 h2
    exact ih (idx + 1) (processRow acc idx r) hp.1 hp.2

theorem processRows_ids_nodup (rows : List Row) : (processRows rows).ids.Nodup :=
  (processFrom_inv rows 0 initAcc (List.nil_subset _) List.nodup_nil).2

/-! Round trip of the embedding serialization. -/

theorem isDigitChar_digitToChar (d : Nat) (h : d < 10) : isDigitChar (digitToChar d) = true := by
  interval_cases d <;> decide

theorem charToDigit_digitToChar (d : Nat) (h : d < 10) : charToDigit (digitToChar d) = d := by
  interval_cases d <;> decide

theorem digitToChar_ne_minus (d : Nat) (h : d < 10) : digitToChar d ≠ '-' := by
  interval_cases d <;> decide

theorem splitSign_minus (cs : List Char) : splitSign ('-' :: cs) = (true, cs) := by
  simp [splitSign]

theorem splitSign_other (c : Char) (cs : List Char) (h : c ≠ '-') :
    splitSign (c :: cs) = (false, c :: cs) := by
  simp [splitSign, h]

theorem takeDigits_exact : ∀ (ds : List Nat) (rest : List Char),
    (∀ x ∈ ds, x < 10) → headNotDigit rest →
    takeDigits (ds.map digitToChar ++ rest) = (ds, rest) := by
  intro ds
  induction ds with
  | nil =>
    intro rest _ hr
    cases rest with
    | nil => rfl
    | cons c cs =>
      have hr2 : isDigitChar c = false := hr
      simp [takeDigits, hr2]
  | cons d ds ih =>
    intro rest hd hr
    have h1 : isDigitChar (digitToChar d) = true :=
      isDigitChar_digitToChar d (hd d (List.mem_cons_self d ds))
    have h2 : charToDigit (digitToChar d) = d :=
      charToDigit_digitToChar d (hd d (List.mem_cons_self d ds))
    simp only [List.map_cons, List.cons_append, takeDigits, h1, if_true, List.append_eq]
    rw [ih rest (fun x hx => hd x (List.mem_cons_of_mem d hx)) hr, h2]

theorem parseDec_serialize (d : Dec) (rest : List Char) (hw : DecWF d) (hr : headNotDigit rest) :
    parseDec? (serializeDecChars d ++ rest) = some (d, rest) := by
  obtain ⟨neg, ip, fp⟩ := d
  obtain ⟨hip, hfp, hipd, hfpd⟩ := hw
  simp only at hip hfp hipd hfpd
  have hdot : headNotDigit ('.' :: (fp.map digitToChar ++ rest)) :=
    (by decide : isDigitChar '.' = false)
  cases neg with
  | true =>
    have hshape : serializeDecChars ⟨true, ip, fp⟩ ++ rest =
        '-' :: (ip.map digitToChar ++ ('.' :: (fp.map digitToChar ++ rest))) := by
      simp [serializeDecChars]
    rw [hshape]
    simp only [parseDec?, splitSign_minus]
    rw [takeDigits_exact ip ('.' :: (fp.map digitToChar ++ rest)) hipd hdot]
    simp only [if_neg hip]
    rw [takeDigits_exact fp rest hfpd hr]
    simp [hfp]
  | false =>
    cases ip with
    | nil => exact absurd rfl hip
    | cons i ip2 =>
      have hi : i < 10 := hipd i (List.mem_cons_self i ip2)
      have hshape : serializeDecChars ⟨false, i :: ip2, fp⟩ ++ rest =
          digitToChar i :: (ip2.map digitToChar ++ ('.' :: (fp.map digitToChar ++ rest))) := by
        simp [serializeDecChars]
      rw [hshape]
      simp only [parseDec?, splitSign_other (digitToChar i) _ (digitToChar_ne_minus i hi)]
      have hcons : digitToChar i :: (ip2.map digitToChar ++ ('.' :: (fp.map digitToChar ++ rest)))
          = (i :: ip2).map digitToChar ++ ('.' :: (fp.map digitToChar ++ rest)) := by
        simp
      rw [hcons, takeDigits_exact (i :: ip2) ('.' :: (fp.map digitToChar ++ rest)) hipd hdot]
      simp only [if_neg hip]
      rw [takeDigits_exact fp rest hfpd hr]
      simp [hfp]

theorem parseItems_serialize : ∀ (l : List Dec) (fuel : Nat),
    l ≠ [] → (∀ d ∈ l, DecWF d) → l.length ≤ fuel →
    parseItems fuel (serializeItems l ++ [']']) = some (l, [']']) := by
  intro l
  induction l with
  | nil => intro fuel h _ _; exact absurd rfl h
  | cons d t ih =>
    intro fuel _ hw hf
    cases fuel with
    | zero => simp at hf
    | succ f =>
      cases t with
      | nil =>
        simp only [serializeItems, parseItems]
        rw [parseDec_serialize d [']'] (hw d (List.mem_cons_self d []))
          ((by decide : isDigitChar ']' = false) : headNotDigit [']'])]
        rfl
      | cons e r =>
        have hsh : serializeItems (d :: e :: r) ++ [']'] =
            serializeDecChars d ++ (',' :: ' ' :: (serializeItems (e :: r) ++ [']'])) := by
          simp [serializeItems]
        have hlen : (e :: r).length ≤ f := by
          simp only [List.length_cons] at hf ⊢
          omega
        simp only [parseItems]
        rw [hsh, parseDec_serialize d (',' :: ' ' :: (serializeItems (e :: r) ++ [']']))
          (hw d (List.mem_cons_self d (e :: r)))
          ((by decide : isDigitChar ',' = false) :
            headNotDigit (',' :: ' ' :: (serializeItems (e :: r) ++ [']'])))]
        simp only [ih f (List.cons_ne_nil e r) (fun x hx => hw x (List.mem_cons_of_mem d hx))
          hlen]

theorem serializeDecChars_ne_nil (d : Dec) : serializeDecChars d ≠ [] := by
  obtain ⟨neg, ip, fp⟩ := d
  simp [serializeDecChars]

theorem serializeItems_ne_nil (d : Dec) (t : List Dec) : serializeItems (d :: t) ≠ [] := by
  cases t with
  | nil => exact serializeDecChars_ne_nil d
  | cons e r =>
    simp [serializeItems]

theorem serializeItems_length : ∀ (l : List Dec), l ≠ [] → l.length ≤ (serializeItems l).length := by
  intro l
  induction l with
  | nil => exact fun h => absurd rfl h
  | cons d t ih =>
    intro _
    cases t with
    | nil =>
      simp only [serializeItems, List.length_cons, List.length_nil]
      have := List.length_pos.mpr (serializeDecChars_ne_nil d)
      omega
    | cons e r =>
      simp only [serializeItems, List.length_append, List.length_cons]
      have h1 := List.length_pos.mpr (serializeDecChars_ne_nil d)
      have h2 := ih (List.cons_ne_nil e r)
      simp only [List.length_cons] at h2
      omega

theorem parseEmb_serialize (l : List Dec) (hw : ∀ d ∈ l, DecWF d) :
    parseEmb ('[' :: (serializeItems l ++ [']'])) = some l := by
  cases l with
  | nil => rfl
  | cons d t =>
    simp only [parseEmb]
    have hne : serializeItems (d :: t) ++ [']'] ≠ [']'] := by
      intro h
      have hlen := congrArg List.length h
      simp only [List.length_append, List.length_cons, List.length_nil] at hlen
      have h1 := List.length_pos.mpr (serializeItems_ne_nil d t)
      omega
    rw [if_neg hne,
      parseItems_serialize (d :: t) (serializeItems (d :: t) ++ [']']).length
        (List.cons_ne_nil d t) hw (by
          simp only [List.length_append, List.length_cons, List.length_nil]
          have := serializeItems_length (d :: t) (List.cons_ne_nil d t)
          simp only [List.length_cons] at this
          omega)]
    rfl

theorem parseEmbedding_serialize (l : List Dec) (hw : ∀ d ∈ l, DecWF d) :
    parseEmbedding (serializeEmbedding l) = some l :=
  parseEmb_serialize l hw

theorem serializeEmbedding_ne_empty (l : List Dec) :
    Val.strV (serializeEmbedding l) ≠ Val.strV "" := by
  intro h
  injection h with h2
  have hd := congrArg String.data h2
  exact List.noConfusion hd

theorem ensure_embedding_list_serialize (l : List Dec) (hw : ∀ d ∈ l, DecWF d) :
    ensure_embedding_list (some (Val.strV (serializeEmbedding l))) = some l := by
  simp only [ensure_embedding_list, pdIsna, Bool.false_eq_true, if_false,
    if_neg (serializeEmbedding_ne_empty l)]
  exact parseEmbedding_serialize l hw

/-! Properties of the fixed size batching. -/

theorem chunks256_cons {α : Type} (a : α) (rest : List α) :
    chunks256 (a :: rest) = (a :: rest).take 256 :: chunks256 ((a :: rest).drop 256) := by
  rw [chunks256]

theorem chunks256_ne_nil {α : Type} (a : α) (rest : List α) : chunks256 (a :: rest) ≠ [] := by
  rw [chunks256_cons]
  exact List.cons_ne_nil _ _

theorem chunks256_flatten {α : Type} : ∀ (l : List α), (chunks256 l).flatten = l := by
  intro l
  induction l using chunks256.induct with
  | case1 => simp [chunks256]
  | case2 a rest ih =>
    rw [chunks256_cons, List.flatten_cons, ih, List.take_append_drop]

theorem chunks256_mem {α : Type} : ∀ (l : List α), ∀ b ∈ chunks256 l, b ≠ [] ∧ b.length ≤ 256 := by
  intro l
  induction l using chunks256.induct with
  | case1 =>
    intro b hb
    simp [chunks256] at hb
  | case2 a rest ih =>
    intro b hb
    rw [chunks256_cons] at hb
    rcases List.mem_cons.mp hb with rfl | hb2
    · constructor
      · apply List.length_pos.mp
        rw [List.length_take]
        simp only [List.length_cons]
        omega
      · rw [List.length_take]
        omega
    · exact ih b hb2

theorem chunks256_dropLast {α : Type} :
    ∀ (l : List α), ∀ b ∈ (chunks256 l).dropLast, b.length = 256 := by
  intro l
  induction l using chunks256.induct with
  | case1 =>
    intro b hb
    simp [chunks256] at hb
  | case2 a rest ih =>
    intro b hb
    rw [chunks256_cons] at hb
    by_cases hd : (a :: rest).drop 256 = []
    · rw [hd] at hb
      simp [chunks256] at hb
    · obtain ⟨c, cs, hcc⟩ := List.exists_cons_of_ne_nil hd
      have hne : chunks256 ((a :: rest).drop 256) ≠ [] := by
        rw [hcc]
        exact chunks256_ne_nil c cs
      rw [List.dropLast_cons_of_ne_nil hne] at hb
      rcases List.mem_cons.mp hb with rfl | hb2
      · rw [List.length_take]
        have hlen : 256 < (a :: rest).length := by
          by_contra hc
          push_neg at hc
          exact hd (List.drop_eq_nil_of_le hc)
        omega
      · exact ih b hb2

/-! Identifier resolution returns nonempty strings. -/

theorem validIdOf_ne_empty (ov : Option Val) (s : String) (h : validIdOf ov = some s) :
    s ≠ "" := by
  cases ov with
  | none => exact Option.noConfusion h
  | some v =>
    simp only [validIdOf] at h
    split at h
    · injection h with h2
      subst h2
      rename_i hc
      simp only [Bool.and_eq_true, bne_iff_ne] at hc
      exact hc.1.2
    · exact Option.noConfusion h

theorem mk_ne_empty (cs : List Char) (h : cs ≠ []) : String.mk cs ≠ "" := by
  intro he
  exact h (congrArg String.data he)

theorem urlIdOf_ne_empty (ov : Option Val) (s : String) (h : urlIdOf ov = some s) :
    s ≠ "" := by
  cases ov with
  | none => exact Option.noConfusion h
  | some v =>
    simp only [urlIdOf] at h
    split at h
    · exact Option.noConfusion h
    · split at h
      · split at h
        · exact Option.noConfusion h
        · injection h with h2
          subst h2
          rename_i hseg
          apply mk_ne_empty
          intro hnil
          apply hseg
          rw [hnil]
          rfl
      · exact Option.noConfusion h

theorem vid_fallback_ne_empty (idx : Nat) : ("vid_" ++ toString idx) ≠ "" := by
  intro h
  have hd := congrArg String.data h
  rw [String.data_append] at hd
  exact List.noConfusion hd

/-! Claim theorems. -/

/-- C1: for every input row whose embedding value parses to a numeric list,
exactly one document is appended to the insert batch with the resolved
unique ID of that row; for every row whose embedding value is missing or
unparsable, no document is inserted, the row is skipped without failing the
run, and over a whole run the number of inserted documents equals the
number of rows with a parsable embedding. -/
theorem claim_C1_one_document_per_valid_row (rows : List Row) (acc : Acc) (idx : Nat)
    (row : Row) :
    (ensure_embedding_list (Row.get row "embedding") = none →
      (processRow acc idx row).ids = acc.ids ∧
      (processRow acc idx row).documents = acc.documents ∧
      (processRow acc idx row).metadatas = acc.metadatas ∧
      (processRow acc idx row).embeddings = acc.embeddings) ∧
    (∀ emb, ensure_embedding_list (Row.get row "embedding") = some emb →
      (processRow acc idx row).ids =
        acc.ids ++ [uniquify acc.usedIds (get_valid_video_id row idx)] ∧
      (processRow acc idx row).documents = acc.documents ++ [docText row] ∧
      (processRow acc idx row).embeddings = acc.embeddings ++ [emb]) ∧
    (processRows rows).ids.length = countValid rows := by
  refine ⟨?_, ?_, ?_⟩
  · intro h
    rw [processRow_skip acc idx row h]
    exact ⟨rfl, rfl, rfl, rfl⟩
  · intro emb h
    rw [processRow_accept acc idx row emb h]
    exact ⟨rfl, rfl, rfl⟩
  · have hl := processFrom_ids_length rows 0 initAcc
    simpa [processRows, initAcc] using hl

/-- C1 witness: one skipped row inserts nothing, one valid row inserts
exactly one document, and the run level count matches. -/
theorem claim_C1_witness :
    (processRow initAcc 0 ([("video_id", Val.strV "a")] : Row)).ids = initAcc.ids ∧
    (processRow initAcc 0 ([("video_id", Val.strV "b"), ("embedding", Val.strV "[0.5]")] : Row)).ids
      = initAcc.ids ++ [uniquify initAcc.usedIds
          (get_valid_video_id ([("video_id", Val.strV "b"), ("embedding", Val.strV "[0.5]")] : Row) 0)] ∧
    (processRows [([("video_id", Val.strV "a")] : Row),
        ([("video_id", Val.strV "b"), ("embedding", Val.strV "[0.5]")] : Row)]).ids.length
      = countValid [([("video_id", Val.strV "a")] : Row),
        ([("video_id", Val.strV "b"), ("embedding", Val.strV "[0.5]")] : Row)] :=
  ⟨((claim_C1_one_document_per_valid_row [] initAcc 0
      ([("video_id", Val.strV "a")] : Row)).1 (by decide)).1,
   ((claim_C1_one_document_per_valid_row [] initAcc 0
      ([("video_id", Val.strV "b"), ("embedding", Val.strV "[0.5]")] : Row)).2.1
      [⟨false, [0], [5]⟩] (by decide)).1,
   (claim_C1_one_document_per_valid_row
      [([("video_id", Val.strV "a")] : Row),
       ([("video_id", Val.strV "b"), ("embedding", Val.strV "[0.5]")] : Row)]
      initAcc 0 ([] : Row)).2.2⟩

/-- C2: within a single run no two inserted documents share an ID, and when
two rows both resolve to the base ID vid_3 the second occurrence is
suffixed to vid_3_1. -/
theorem claim_C2_no_duplicate_inserted_ids (rows : List Row) :
    (processRows rows).ids.Nodup ∧
    (processRows [([("video_id", Val.strV "vid_3"), ("embedding", Val.strV "[0.5]")] : Row),
        ([("video_id", Val.strV "vid_3"), ("embedding", Val.strV "[0.5]")] : Row)]).ids
      = ["vid_3", "vid_3_1"] :=
  ⟨processRows_ids_nodup rows, by decide⟩

/-- C2 witness: the theorem evaluated on the two row example from the spec. -/
theorem claim_C2_witness :
    (processRows [([("video_id", Val.strV "vid_3"), ("embedding", Val.strV "[0.5]")] : Row),
        ([("video_id", Val.strV "vid_3"), ("embedding", Val.strV "[0.5]")] : Row)]).ids
      = ["vid_3", "vid_3_1"] ∧
    (processRows [([("video_id", Val.strV "vid_3"), ("embedding", Val.strV "[0.5]")] : Row),
        ([("video_id", Val.strV "vid_3"), ("embedding", Val.strV "[0.5]")] : Row)]).ids.Nodup :=
  ⟨(claim_C2_no_duplicate_inserted_ids []).2,
   (claim_C2_no_duplicate_inserted_ids
      [([("video_id", Val.strV "vid_3"), ("embedding", Val.strV "[0.5]")] : Row),
       ([("video_id", Val.strV "vid_3"), ("embedding", Val.strV "[0.5]")] : Row)]).1⟩

/-- C3: identifier resolution always returns a nonempty string, is a pure
function of the record and index, and follows the precedence video_id
field, then id field, then the v= parameter of the url, then the
synthesized vid_ index fallback. -/
theorem claim_C3_id_resolution (row : Row) (idx : Nat) :
    get_valid_video_id row idx ≠ "" ∧
    (∀ s, validIdOf (Row.get row "video_id") = some s → get_valid_video_id row idx = s) ∧
    (validIdOf (Row.get row "video_id") = none →
      ∀ s, validIdOf (Row.get row "id") = some s → get_valid_video_id row idx = s) ∧
    (validIdOf (Row.get row "video_id") = none → validIdOf (Row.get row "id") = none →
      ∀ s, urlIdOf (Row.get row "url") = some s → get_valid_video_id row idx = s) ∧
    (validIdOf (Row.get row "video_id") = none → validIdOf (Row.get row "id") = none →
      urlIdOf (Row.get row "url") = none →
      get_valid_video_id row idx = "vid_" ++ toString idx) ∧
    (∀ row2 idx2, row = row2 → idx = idx2 →
      get_valid_video_id row idx = get_valid_video_id row2 idx2) := by
  refine ⟨?_, ?_, ?_, ?_, ?_, ?_⟩
  · cases h1 : validIdOf (Row.get row "video_id") with
    | some s1 =>
      simp only [get_valid_video_id, h1]
      exact validIdOf_ne_empty _ s1 h1
    | none =>
      cases h2 : validIdOf (Row.get row "id") with
      | some s2 =>
        simp only [get_valid_video_id, h1, h2]
        exact validIdOf_ne_empty _ s2 h2
      | none =>
        cases h3 : urlIdOf (Row.get row "url") with
        | some s3 =>
          simp only [get_valid_video_id, h1, h2, h3]
          exact urlIdOf_ne_empty _ s3 h3
        | none =>
          simp only [get_valid_video_id, h1, h2, h3]
          exact vid_fallback_ne_empty idx
  · intro s hs
    simp only [get_valid_video_id, hs]
  · intro h1 s hs
    simp only [get_valid_video_id, h1, hs]
  · intro h1 h2 s hs
    simp only [get_valid_video_id, h1, h2, hs]
  · intro h1 h2 h3
    simp only [get_valid_video_id, h1, h2, h3]
  · intro row2 idx2 hr hi
    rw [hr, hi]

/-- C3 witness: the explicit field wins and is stripped, the url parameter
is used when the fields are absent, and the positional fallback appears
when everything is missing. -/
theorem claim_C3_witness :
    get_valid_video_id ([("video_id", Val.strV " abc ")] : Row) 5 = "abc" ∧
    get_valid_video_id ([("url", Val.strV "x?v=Q&t=1")] : Row) 5 = "Q" ∧
    get_valid_video_id ([] : Row) 5 = "vid_" ++ toString 5 :=
  ⟨(claim_C3_id_resolution ([("video_id", Val.strV " abc ")] : Row) 5).2.1 "abc" (by decide),
   (claim_C3_id_resolution ([("url", Val.strV "x?v=Q&t=1")] : Row) 5).2.2.2.1
     (by decide) (by decide) "Q" (by decide),
   (claim_C3_id_resolution ([] : Row) 5).2.2.2.2.1 (by decide) (by decide) (by decide)⟩

/-- C4: the document text is always a string, the empty string when every
candidate text field is missing or NaN, and a row with video_id abc,
transcript missing and combined_text hello yields document text hello
under ID abc. -/
theorem claim_C4_document_text (row : Row)
    (h1 : Row.get row "transcript_clean" = none ∨
      ∃ v, Row.get row "transcript_clean" = some v ∧ pdIsna v = true)
    (h2 : Row.get row "combined_text" = none ∨
      ∃ v, Row.get row "combined_text" = some v ∧ pdIsna v = true)
    (h3 : Row.get row "transcript" = none ∨
      ∃ v, Row.get row "transcript" = some v ∧ pdIsna v = true) :
    docText row = "" ∧
    docText ([("video_id", Val.strV "abc"), ("combined_text", Val.strV "hello"),
      ("embedding", Val.strV "[0.5]")] : Row) = "hello" ∧
    get_valid_video_id ([("video_id", Val.strV "abc"), ("combined_text", Val.strV "hello"),
      ("embedding", Val.strV "[0.5]")] : Row) 0 = "abc" ∧
    (processRows [([("video_id", Val.strV "abc"), ("combined_text", Val.strV "hello"),
      ("embedding", Val.strV "[0.5]")] : Row)]).ids = ["abc"] ∧
    (processRows [([("video_id", Val.strV "abc"), ("combined_text", Val.strV "hello"),
      ("embedding", Val.strV "[0.5]")] : Row)]).documents = ["hello"] := by
  refine ⟨?_, by decide, by decide, by decide, by decide⟩
  have e1 : falsyOrNa (Row.get row "transcript_clean") = true := by
    rcases h1 with h | ⟨v, hv, hna⟩
    · rw [h]; rfl
    · rw [hv]; simp [falsyOrNa, hna]
  have e2 : falsyOrNa (Row.get row "combined_text") = true := by
    rcases h2 with h | ⟨v, hv, hna⟩
    · rw [h]; rfl
    · rw [hv]; simp [falsyOrNa, hna]
  simp only [docText]
  rw [if_pos e1, if_pos e2]
  rcases h3 with h | ⟨v, hv, hna⟩
  · rw [h]
  · rw [hv]
    simp [hna]

/-- C4 witness: a row with no text columns at all gets the empty document
text, and the concrete example row from the spec is exercised through the
whole loop. -/
theorem claim_C4_witness :
    docText ([] : Row) = "" ∧
    (processRows [([("video_id", Val.strV "abc"), ("combined_text", Val.strV "hello"),
      ("embedding", Val.strV "[0.5]")] : Row)]).documents = ["hello"] :=
  ⟨(claim_C4_document_text ([] : Row) (Or.inl rfl) (Or.inl rfl) (Or.inl rfl)).1,
   (claim_C4_document_text ([] : Row) (Or.inl rfl) (Or.inl rfl) (Or.inl rfl)).2.2.2.2⟩

/-- C5: an embedding vector serialized by the embedder as a stringified
list and parsed back by the loader through ensure_embedding_list yields the
original numeric sequence. -/
theorem claim_C5_embedding_round_trip (l : List Dec) (hw : ∀ d ∈ l, DecWF d) :
    ensure_embedding_list (some (Val.strV (serializeEmbedding l))) = some l :=
  ensure_embedding_list_serialize l hw

/-- C5 witness: the round trip evaluated on the concrete vector 0.5, -12.25. -/
theorem claim_C5_witness :
    ensure_embedding_list (some (Val.strV (serializeEmbedding
      [⟨false, [0], [5]⟩, ⟨true, [1, 2], [2, 5]⟩]))) =
      some [⟨false, [0], [5]⟩, ⟨true, [1, 2], [2, 5]⟩] :=
  claim_C5_embedding_round_trip [⟨false, [0], [5]⟩, ⟨true, [1, 2], [2, 5]⟩] (by decide)

/-- C6: on a TypeError from the keyword add call the loader retries with
positional arguments, falls back to upsert when positional insertion also
fails and upsert is available, re-raises when it is not, and the batches
are consecutive slices of at most 256 records that partition the input,
with every batch before the last holding exactly 256. -/
theorem claim_C6_insert_fallback_and_batching {α : Type} (c : CollectionApi) (l : List α)
    (hk : c.addKw = CallResult.typeError) :
    (c.addPos = CallResult.ok → insertBatch c = InsertOutcome.insertedPos) ∧
    (c.addPos ≠ CallResult.ok → c.hasUpsert = true → c.upsertRaises = false →
      insertBatch c = InsertOutcome.upserted) ∧
    (c.addPos ≠ CallResult.ok → c.hasUpsert = false →
      insertBatch c = InsertOutcome.raisedFromPos) ∧
    (chunks256 l).flatten = l ∧
    (∀ b ∈ chunks256 l, b ≠ [] ∧ b.length ≤ 256) ∧
    (∀ b ∈ (chunks256 l).dropLast, b.length = 256) := by
  refine ⟨?_, ?_, ?_, chunks256_flatten l, chunks256_mem l, chunks256_dropLast l⟩
  · intro hp
    simp [insertBatch, hk, hp]
  · intro hne hu2 ur2
    cases hp : c.addPos with
    | ok => exact absurd hp hne
    | typeError => simp [insertBatch, hk, hp, hu2, ur2]
    | otherError => simp [insertBatch, hk, hp, hu2, ur2]
  · intro hne hu2
    cases hp : c.addPos with
    | ok => exact absurd hp hne
    | typeError => simp [insertBatch, hk, hp, hu2]
    | otherError => simp [insertBatch, hk, hp, hu2]

/-- C6 witness: a collection whose positional add also fails and which has
no upsert re-raises, and batching partitions a concrete list. -/
theorem claim_C6_witness :
    insertBatch ⟨CallResult.typeError, CallResult.otherError, false, false⟩ =
      InsertOutcome.raisedFromPos ∧
    (chunks256 ([0, 1, 2] : List Nat)).flatten = [0, 1, 2] :=
  ⟨(claim_C6_insert_fallback_and_batching
      ⟨CallResult.typeError, CallResult.otherError, false, false⟩ ([] : List Nat) rfl).2.2.1
      (by decide) rfl,
   (claim_C6_insert_fallback_and_batching
      ⟨CallResult.typeError, CallResult.otherError, false, false⟩ ([0, 1, 2] : List Nat)
      rfl).2.2.2.1⟩

/-- C7: client bootstrapping attempts the persistent, network, legacy
configuration and generic path strategies in that order, returns the first
that does not raise, and fails fatally exactly when every strategy raises. -/
theorem claim_C7_client_bootstrap (e : ClientEnv) :
    (create_chroma_client e = ClientResult.failure ↔
      e.persistentOk = false ∧ e.httpOk = false ∧ e.settingsOk = false ∧ e.pathOk = false) ∧
    (e.persistentOk = true → create_chroma_client e = ClientResult.persistent) ∧
    (e.persistentOk = false → e.httpOk = true → create_chroma_client e = ClientResult.http) ∧
    (e.persistentOk = false → e.httpOk = false → e.settingsOk = true →
      create_chroma_client e = ClientResult.settings) ∧
    (e.persistentOk = false → e.httpOk = false → e.settingsOk = false → e.pathOk = true →
      create_chroma_client e = ClientResult.path) := by
  obtain ⟨p, h, s, t⟩ := e
  cases p <;> cases h <;> cases s <;> cases t <;> simp [create_chroma_client]

/-- C7 witness: with only the network strategy working the client comes
from it, and with nothing working the construction is fatal. -/
theorem claim_C7_witness :
    create_chroma_client ⟨false, true, false, false⟩ = ClientResult.http ∧
    create_chroma_client ⟨false, false, false, false⟩ = ClientResult.failure :=
  ⟨(claim_C7_client_bootstrap ⟨false, true, false, false⟩).2.2.1 rfl rfl,
   (claim_C7_client_bootstrap ⟨false, false, false, false⟩).1.mpr ⟨rfl, rfl, rfl, rfl⟩⟩

/-- C8: a missing input file, or a missing combined_text column in the
embedder, raises immediately: nothing is embedded and nothing is inserted. -/
theorem claim_C8_missing_input_fatal (fe1 fe2 fe3 : Bool) (cols : List String) :
    (fe1 = false → (embed_main fe1 cols).2.isSome = true ∧ (embed_main fe1 cols).1 = []) ∧
    (fe2 = true → cols.contains "combined_text" = false →
      (embed_main fe2 cols).2.isSome = true ∧
      EmbedStep.embedTexts ∉ (embed_main fe2 cols).1) ∧
    (fe3 = false → (vector_db_main fe3).2.isSome = true ∧ (vector_db_main fe3).1 = []) := by
  refine ⟨?_, ?_, ?_⟩
  · rintro rfl
    exact ⟨rfl, rfl⟩
  · rintro rfl hc
    have hm : "combined_text" ∉ cols := by simpa using hc
    constructor
    · simp [embed_main, hm]
    · simp [embed_main, hm]
  · rintro rfl
    exact ⟨rfl, rfl⟩

/-- C8 witness: the three fatal guards evaluated on concrete inputs. -/
theorem claim_C8_witness :
    (embed_main false ["combined_text"]).1 = [] ∧
    EmbedStep.embedTexts ∉ (embed_main true ["title"]).1 ∧
    (vector_db_main false).1 = [] :=
  ⟨((claim_C8_missing_input_fatal false true false ["combined_text"]).1 rfl).2,
   ((claim_C8_missing_input_fatal false true false ["title"]).2.1 rfl (by decide)).2,
   ((claim_C8_missing_input_fatal false true false ["combined_text"]).2.2 rfl).2⟩

/-- C9: a row skipped for a missing embedding still consumes its resolved
ID in the running uniqueness set, so a later valid row with the same base
ID is inserted under a suffixed ID even though no document with the base ID
was inserted. -/
theorem claim_C9_skipped_rows_consume_ids (used : List String) (base : String) (acc : Acc)
    (idx : Nat) (row : Row) :
    (base ∈ used → ∃ k, 1 ≤ k ∧ uniquify used base = base ++ "_" ++ toString k) ∧
    (ensure_embedding_list (Row.get row "embedding") = none →
      (processRow acc idx row).usedIds =
        acc.usedIds ++ [uniquify acc.usedIds (get_valid_video_id row idx)] ∧
      (processRow acc idx row).ids = acc.ids) ∧
    (processRows [([("video_id", Val.strV "a")] : Row),
        ([("video_id", Val.strV "a"), ("embedding", Val.strV "[1.0]")] : Row)]).ids = ["a_1"] ∧
    "a" ∉ (processRows [([("video_id", Val.strV "a")] : Row),
        ([("video_id", Val.strV "a"), ("embedding", Val.strV "[1.0]")] : Row)]).ids := by
  refine ⟨?_, ?_, by decide, by decide⟩
  · intro h
    obtain ⟨k, hk1, hk2⟩ := uniquify_mem_shape used base h
    exact ⟨k, hk1, hk2⟩
  · intro h
    rw [processRow_skip acc idx row h]
    exact ⟨rfl, rfl⟩

/-- C9 witness: a taken base produces a suffixed name, a skipped row leaves
the inserted IDs unchanged while consuming its own, and the two row example
inserts only under the suffixed ID. -/
theorem claim_C9_witness :
    (∃ k, 1 ≤ k ∧ uniquify ["a"] "a" = "a" ++ "_" ++ toString k) ∧
    (processRow initAcc 0 ([("video_id", Val.strV "a")] : Row)).ids = initAcc.ids ∧
    (processRows [([("video_id", Val.strV "a")] : Row),
        ([("video_id", Val.strV "a"), ("embedding", Val.strV "[1.0]")] : Row)]).ids = ["a_1"] :=
  ⟨(claim_C9_skipped_rows_consume_ids ["a"] "a" initAcc 0
      ([("video_id", Val.strV "a")] : Row)).1 (by decide),
   ((claim_C9_skipped_rows_consume_ids ["a"] "a" initAcc 0
      ([("video_id", Val.strV "a")] : Row)).2.1 (by decide)).2,
   (claim_C9_skipped_rows_consume_ids ["a"] "a" initAcc 0
      ([("video_id", Val.strV "a")] : Row)).2.2.1⟩

/-- C10: the four parallel accumulator lists always have equal lengths, so
the length assertion before batching holds on every input. -/
theorem claim_C10_parallel_lists_equal_length (rows : List Row) :
    (processRows rows).ids.length = (processRows rows).documents.length ∧
    (processRows rows).ids.length = (processRows rows).metadatas.length ∧
    (processRows rows).ids.length = (processRows rows).embeddings.length :=
  processFrom_lengths rows 0 initAcc rfl rfl rfl

/-- C10 witness: the theorem evaluated on a concrete mixed run. -/
theorem claim_C10_witness :
    (processRows [([("embedding", Val.strV "[0.5]")] : Row), ([] : Row)]).ids.length =
      (processRows [([("embedding", Val.strV "[0.5]")] : Row), ([] : Row)]).documents.length :=
  (claim_C10_parallel_lists_equal_length
    [([("embedding", Val.strV "[0.5]")] : Row), ([] : Row)]).1

end QueryTube
